import Mathlib

/-! # pollapo-go `install`: dependency traversal, lock table and dependency parsing

A shallow embedding of `cli/pollapo-go/cmd/install.go`:

* `PollapoDep`, `PollapoDep.String`, `parseDep`, `PollapoYml.deps` (lines 179-206);
* the queue loop of `cacheDeps` (lines 83-145), one pass through its body per unit of fuel;
* the lock table that `installCmd.RunE` builds from the events (lines 57-62).

Go strings are modelled by Lean strings (sequences of Unicode characters), slices by lists,
`map[string]string` by an association list read with the zero value `""` for a missing
key, `map[string]bool` by the list of keys set to `true`.  The unbuffered channel `ch` is
the list of the events sent, oldest first, which is the order in which `RunE` receives
them.  A run-time panic (nil dereference, index out of range) is an explicit status; it is
never confused with running out of fuel.

`getYmlPath` and `getRevType` are stubs in the source; they, the file system, the YAML
loader and the remote client are parameters of the traversal (`Env`).
-/

namespace Pollapo

/-! ## Dependencies and their identity string -/

/-- The struct `PollapoDep` (lines 179-183). -/
structure PollapoDep where
  user : String
  repo : String
  rev : String
  deriving DecidableEq, Repr

/-- The method `PollapoDep.String` (line 186): `fmt.Sprintf("%s/%s@%s", user, repo, rev)`. -/
def PollapoDep.String (p : PollapoDep) : String :=
  p.user ++ "/" ++ p.repo ++ "@" ++ p.rev

/-! ## The pattern `(.+?)/(.+?)@(.+)`

Go's `regexp` finds the leftmost match and, among the matches starting there, the one a
backtracking search finds first: a lazy `+?` tries the shorter repetition first, a greedy
`+` the longer one.  `.` matches every character but the newline.  The three combinators
below are that search, each taking the rest of the pattern as a continuation. -/

/-- The character class `.`, which every character but the newline matches. -/
def dot (c : Char) : Bool := c != '\n'

/-- A literal character followed by the rest of the pattern `k`. -/
def litK {R : Type} (c : Char) (k : List Char → Option R) : List Char → Option R
  | [] => none
  | x :: xs => if x = c then k xs else none

/-- A capturing lazy group `(.+?)` followed by `k`: after each character consumed the rest
of the pattern is tried first, and one more character is consumed only when it fails.
`acc` is the text captured so far. -/
def lazyPlusK {R : Type} (k : List Char → List Char → Option R) :
    List Char → List Char → Option R
  | _, [] => none
  | acc, c :: cs =>
    if dot c then
      match k (acc ++ [c]) cs with
      | some r => some r
      | none => lazyPlusK k (acc ++ [c]) cs
    else none

/-- A capturing greedy group `(.+)` followed by `k`: one more character is consumed first,
and the rest of the pattern is tried only when that fails. -/
def greedyPlusK {R : Type} (k : List Char → List Char → Option R) :
    List Char → List Char → Option R
  | _, [] => none
  | acc, c :: cs =>
    if dot c then
      match greedyPlusK k (acc ++ [c]) cs with
      | some r => some r
      | none => k (acc ++ [c]) cs
    else none

/-- The pattern `(.+?)/(.+?)@(.+)` matched at the start of the input; the result is the
text of the three groups. -/
def depPattern (s : List Char) : Option (List Char × List Char × List Char) :=
  lazyPlusK (fun g1 => litK '/' (lazyPlusK (fun g2 => litK '@'
    (greedyPlusK (fun g3 _ => some (g1, g2, g3)) [])) [])) [] s

/-- The unanchored search of `FindStringSubmatch`: the first start position at which the
pattern matches. -/
def findSubmatch {R : Type} (m : List Char → Option R) : List Char → Option R
  | [] => m []
  | c :: cs =>
    match m (c :: cs) with
    | some r => some r
    | none => findSubmatch m cs

/-- The function `parseDep` (lines 189-198).  `FindStringSubmatch` returns nil when the
pattern matches nowhere, and `match[1]` then panics: that is `none`. -/
def parseDep (dep : String) : Option PollapoDep :=
  match findSubmatch depPattern dep.data with
  | some (g1, g2, g3) => some { user := ⟨g1⟩, repo := ⟨g2⟩, rev := ⟨g3⟩ }
  | none => none

/-! ## Manifests -/

/-- The type `PollapoRootLockTable` (line 218), a `map[string]string`. -/
abbrev PollapoRootLockTable := List (String × String)

/-- The map read `lockTable[k]`: the zero value `""` when the key is absent. -/
def PollapoRootLockTable.get (t : PollapoRootLockTable) (k : String) : String :=
  match t.lookup k with
  | some v => v
  | none => ""

/-- The map write `lockTable[k] = v`. -/
def PollapoRootLockTable.set (t : PollapoRootLockTable) (k v : String) :
    PollapoRootLockTable :=
  (k, v) :: t.filter (fun e => e.1 != k)

/-- The keys of the map. -/
def PollapoRootLockTable.keys (t : PollapoRootLockTable) : List String :=
  t.map Prod.fst

/-- The struct `PollapoRoot` (lines 213-216); `Lock` is a pointer, `none` is nil.  The
field `ReplaceFileOption` is never read by the code embedded here. -/
structure PollapoRoot where
  Lock : Option PollapoRootLockTable
  deriving DecidableEq, Repr

/-- The struct `PollapoYml` (lines 208-211); both fields are pointers, `none` is nil. -/
structure PollapoYml where
  Deps : Option (List String)
  Root : Option PollapoRoot
  deriving DecidableEq, Repr

/-- The method `PollapoYml.deps` (lines 200-206): `none` is the panic of `*p.Deps` on a nil
pointer or of `parseDep` on a string the pattern does not match. -/
def PollapoYml.deps (p : PollapoYml) : Option (List PollapoDep) :=
  match p.Deps with
  | none => none
  | some ds => ds.mapM parseDep

/-! ## Events -/

/-- The event type `UseCache` (line 167, `1 + iota`). -/
def UseCache : Nat := 1

/-- The event type `UseLockedCommitHash` (line 168). -/
def UseLockedCommitHash : Nat := 2

/-- The event type `CheckCommitHash` (line 169). -/
def CheckCommitHash : Nat := 3

/-- The event type `Download` (line 170). -/
def Download : Nat := 4

/-- The struct `CacheDepsEvent` (lines 173-177). -/
structure CacheDepsEvent where
  typ : Nat
  dep : PollapoDep
  revision : String
  deriving DecidableEq, Repr

/-! ## The collaborators of `cacheDeps`

`getYmlPath` and `getRevType` are stubs in the source (lines 151-154, both return
`"TODO"`), `fsExists`, `os.RemoveAll` and `loadPollapoYml` read or write the file system,
and `FetchCommitStatus` asks the remote.  The traversal takes them as parameters. -/

/-- The functions `cacheDeps` calls.  `fsExists` is `os.Stat` on the file system found at
entry and `RemoveAll dir fs` the file system left by `os.RemoveAll(dir)`, whose error the
code discards.  `loadPollapoYml` is file reading and YAML decoding (lines 234-239). -/
structure Env where
  getYmlPath : String → PollapoDep → String
  getRevType : String → String
  fsExists : String → Bool
  RemoveAll : String → (String → Bool) → String → Bool
  loadPollapoYml : String → PollapoYml
  FetchCommitStatus : String → String → String → String

/-- The source as it stands: `getYmlPath` and `getRevType` both return `"TODO"`. -/
def stubEnv (fsExists : String → Bool) (RemoveAll : String → (String → Bool) → String → Bool)
    (loadPollapoYml : String → PollapoYml)
    (FetchCommitStatus : String → String → String → String) : Env :=
  { getYmlPath := fun _ _ => "TODO"
    getRevType := fun _ => "TODO"
    fsExists := fsExists
    RemoveAll := RemoveAll
    loadPollapoYml := loadPollapoYml
    FetchCommitStatus := FetchCommitStatus }

/-- The file system the queue loop sees: lines 79-81 have removed the cache directory when
`clean` is set.  The loop itself only creates the directories `cacheDir/user` (line 108,
result discarded) and writes no manifest, so the answers of `fsExists` on manifest paths
are those of this file system throughout the loop. -/
def Env.cache (env : Env) (cacheDir : String) (clean : Bool) : String → Bool :=
  if clean then env.RemoveAll cacheDir env.fsExists else env.fsExists

/-! ## The queue loop of `cacheDeps` -/

/-- The variables of the goroutine of `cacheDeps`.  `queue` and `visitedDeps` are the
source's; `sent` are the events sent on `ch`, oldest first.  `passed` and `fetched` are
history variables: the dependencies that passed the `visitedDeps` guard and the argument
triples of the calls of `FetchCommitStatus`, oldest first. -/
structure LoopState where
  queue : List PollapoDep
  visitedDeps : List String
  sent : List CacheDepsEvent
  passed : List PollapoDep
  fetched : List (String × String × String)
  deriving DecidableEq, Repr

/-- How far the goroutine got: still in the loop, loop left and channel closed, or stopped
by a run-time panic. -/
inductive Status where
  | running
  | closed
  | panicked
  deriving DecidableEq, Repr

/-- A status with the variables at that point. -/
structure Run where
  status : Status
  state : LoopState
  deriving DecidableEq, Repr

/-- Lines 100-107 for a dependency that passed the guard: when the revision is not a
branch and the manifest is cached, its dependencies are appended to the queue and
`UseCache` is sent.  `none` is the panic of `deps()`. -/
def useCachePart (env : Env) (cacheDir : String) (fs : String → Bool) (dep : PollapoDep)
    (s : LoopState) : Option LoopState :=
  let ymlPath := env.getYmlPath cacheDir dep
  let revType := env.getRevType dep.rev
  if revType ≠ "branch" ∧ fs ymlPath = true then
    match (env.loadPollapoYml ymlPath).deps with
    | none => none
    | some ds =>
      some { s with
        queue := s.queue ++ ds
        sent := s.sent ++ [{ typ := UseCache, dep := dep, revision := dep.rev }] }
  else some s

/-- Line 112: `useLock := commitHash == ""`, with `commitHash := lockTable[depString]`
(line 111). -/
def useLock (lockTable : PollapoRootLockTable) (dep : PollapoDep) : Bool :=
  lockTable.get dep.String == ""

/-- Lines 111-115: the value of `commitHash` after the `if !useLock` statement. -/
def commitHashOf (env : Env) (lockTable : PollapoRootLockTable) (dep : PollapoDep) : String :=
  if !useLock lockTable dep then env.FetchCommitStatus dep.user dep.repo dep.rev
  else lockTable.get dep.String

/-- Lines 110-144 for a dependency that passed the guard. -/
def revPart (env : Env) (lockTable : PollapoRootLockTable) (dep : PollapoDep)
    (s : LoopState) : LoopState :=
  let revType := env.getRevType dep.rev
  if revType = "branch" then
    let commitHash := commitHashOf env lockTable dep
    let fetched :=
      if !useLock lockTable dep then s.fetched ++ [(dep.user, dep.repo, dep.rev)]
      else s.fetched
    let typ := if useLock lockTable dep then UseLockedCommitHash else CheckCommitHash
    let newDep := { dep with rev := commitHash }
    { s with
      queue := s.queue ++ [newDep]
      sent := s.sent ++ [{ typ := typ, dep := dep, revision := commitHash }]
      fetched := fetched }
  else
    { s with sent := s.sent ++ [{ typ := Download, dep := dep, revision := dep.rev }] }

/-- One pass through the body of `for len(queue) != 0` (lines 87-145). -/
def iteration (env : Env) (cacheDir : String) (fs : String → Bool)
    (lockTable : PollapoRootLockTable) (s : LoopState) : Run :=
  match s.queue with
  | [] => ⟨.closed, s⟩
  | dep :: queue =>
    let depString := dep.String
    if depString ∈ s.visitedDeps then
      ⟨.running, { s with queue := queue }⟩
    else
      let s1 := { s with
        queue := queue
        visitedDeps := s.visitedDeps ++ [depString]
        passed := s.passed ++ [dep] }
      match useCachePart env cacheDir fs dep s1 with
      | none => ⟨.panicked, s1⟩
      | some s2 => ⟨.running, revPart env lockTable dep s2⟩

/-- The loop `for len(queue) != 0`, at most `fuel` passes through its body. -/
def cacheDepsLoop (env : Env) (cacheDir : String) (fs : String → Bool)
    (lockTable : PollapoRootLockTable) : Nat → LoopState → Run
  | 0, s => match s.queue with
    | [] => ⟨.closed, s⟩
    | _ :: _ => ⟨.running, s⟩
  | fuel + 1, s =>
    match iteration env cacheDir fs lockTable s with
    | ⟨.running, s1⟩ => cacheDepsLoop env cacheDir fs lockTable fuel s1
    | r => r

/-- The variables before line 83. -/
def LoopState.init : LoopState :=
  { queue := [], visitedDeps := [], sent := [], passed := [], fetched := [] }

/-- The goroutine of `cacheDeps` (lines 76-146) run for at most `fuel` passes through the
loop body.  Line 83 dereferences `pollapoYml.Root` and `Root.Lock`, line 84 calls
`deps()`; each panics on nil. -/
def cacheDeps (env : Env) (cacheDir : String) (clean : Bool) (pollapoYml : PollapoYml)
    (fuel : Nat) : Run :=
  let fs := env.cache cacheDir clean
  match pollapoYml.Root with
  | none => ⟨.panicked, LoopState.init⟩
  | some root =>
    match root.Lock with
    | none => ⟨.panicked, LoopState.init⟩
    | some lockTable =>
      match pollapoYml.deps with
      | none => ⟨.panicked, LoopState.init⟩
      | some queue =>
        cacheDepsLoop env cacheDir fs lockTable fuel { LoopState.init with queue := queue }

/-- The lock table `installCmd.RunE` builds while it drains the channel (lines 57-62). -/
def installLockTable (events : List CacheDepsEvent) : PollapoRootLockTable :=
  events.foldl
    (fun lockTable r =>
      if r.typ = UseLockedCommitHash ∨ r.typ = CheckCommitHash then
        lockTable.set r.dep.String r.revision
      else lockTable)
    []

/-! ## Auxiliary notions for the statements -/

/-- The shape of the dependencies `parseDep` returns: the lazy groups are not empty, a `/`
can only be the first character of `user` and an `@` only the first character of `repo`. -/
def Parsed (d : PollapoDep) : Prop :=
  d.user.data ≠ [] ∧ '/' ∉ d.user.data.tail ∧ d.repo.data ≠ [] ∧ '@' ∉ d.repo.data.tail

/-- Componentwise concatenation of the variables. -/
def LoopState.append (s d : LoopState) : LoopState :=
  { queue := s.queue ++ d.queue
    visitedDeps := s.visitedDeps ++ d.visitedDeps
    sent := s.sent ++ d.sent
    passed := s.passed ++ d.passed
    fetched := s.fetched ++ d.fetched }

/-- What lines 100-144 add to the variables for a dependency that passed the guard: the
loop body run on empty variables.  `none` is the panic of `deps()`. -/
def bodyOn (env : Env) (cacheDir : String) (fs : String → Bool)
    (lockTable : PollapoRootLockTable) (dep : PollapoDep) : Option LoopState :=
  (useCachePart env cacheDir fs dep LoopState.init).map (revPart env lockTable dep)

/-- An event that `installCmd.RunE` writes into its lock table (line 59). -/
def CacheDepsEvent.locks (r : CacheDepsEvent) : Prop :=
  r.typ = UseLockedCommitHash ∨ r.typ = CheckCommitHash

/-- The invariant of the queue loop: `visitedDeps` holds the identity strings of the
dependencies that passed the guard, no identity string passed twice, every event sent is
about a dependency that passed, and the events `RunE` writes into its lock table are those
of the dependencies classified as branches. -/
structure Inv (env : Env) (s : LoopState) : Prop where
  visited : s.visitedDeps = s.passed.map PollapoDep.String
  nodup : (s.passed.map PollapoDep.String).Nodup
  sent_passed : ∀ e ∈ s.sent, e.dep ∈ s.passed
  locks_branch : ∀ e ∈ s.sent, e.locks → env.getRevType e.dep.rev = "branch"
  branch_locks : ∀ d ∈ s.passed, env.getRevType d.rev = "branch" →
    ∃ e ∈ s.sent, e.locks ∧ e.dep = d

/-- The events and passed dependencies of `s` extend those of `s0`, and every added event
is about an added dependency. -/
def Extends (s0 s : LoopState) : Prop :=
  ∃ newP newE, s.passed = s0.passed ++ newP ∧ s.sent = s0.sent ++ newE ∧
    ∀ e ∈ newE, e.dep ∈ newP

/-- The finite set `S` of dependency triples contains everything the traversal can reach
from it: the dependencies listed by the cached manifest of each member that is not a
branch (a manifest that `deps()` can read), and for each member that is a branch the
derived triple whose revision is the commit hash of lines 111-115. -/
def ReachClosed (env : Env) (cacheDir : String) (fs : String → Bool)
    (lockTable : PollapoRootLockTable) (S : List PollapoDep) : Prop :=
  (∀ d ∈ S, env.getRevType d.rev ≠ "branch" → fs (env.getYmlPath cacheDir d) = true →
    ∃ ds, (env.loadPollapoYml (env.getYmlPath cacheDir d)).deps = some ds ∧
      ∀ x ∈ ds, x ∈ S) ∧
  (∀ d ∈ S, env.getRevType d.rev = "branch" →
    { d with rev := commitHashOf env lockTable d } ∈ S)

/-- The number of identity strings of `S` not yet in `visitedDeps`. -/
def unvisited (S : List PollapoDep) (s : LoopState) : Nat :=
  ((S.map PollapoDep.String).toFinset \ s.visitedDeps.toFinset).card

/-- The list `m` consists of one non-empty block of copies of each element of `es`, in the
order of `es`. -/
inductive Grouped : List PollapoDep → List PollapoDep → Prop where
  | nil : Grouped [] []
  | cons (e : PollapoDep) (k : Nat) {es m : List PollapoDep} (hk : 0 < k)
      (h : Grouped es m) : Grouped (e :: es) (List.replicate k e ++ m)

/-! ## Concrete collaborators and manifests -/

/-- Collaborators given by tables: the revisions that are branches, the manifests in the
cache by path, and the commit hash the remote answers with.  A manifest path is
`cacheDir/user/repo@rev/pollapo.yml`; a file that is not there decodes to the zero
`PollapoYml`, as `loadPollapoYml` discards both errors. -/
def testEnv (branches : List String) (files : List (String × PollapoYml)) (head : String) :
    Env :=
  { getYmlPath := fun cacheDir dep => cacheDir ++ "/" ++ dep.String ++ "/pollapo.yml"
    getRevType := fun rev => if rev ∈ branches then "branch" else "tag"
    fsExists := fun path => (files.lookup path).isSome
    RemoveAll := fun dir fs path => fs path && !(dir.data.isPrefixOf path.data)
    loadPollapoYml := fun path => (files.lookup path).getD { Deps := none, Root := none }
    FetchCommitStatus := fun _ _ _ => head }

/-- A remote whose branch `main` is at commit `def456`, and an empty cache. -/
def acmeEnv : Env := testEnv ["main"] [] "def456"

/-- The same remote, with `acme/widget@v1.0.0` in the cache; its manifest lists no
dependency. -/
def acmeCachedEnv : Env :=
  testEnv ["main"] [("cache/acme/widget@v1.0.0/pollapo.yml", { Deps := some [], Root := none })]
    "def456"

/-- A root manifest with the dependency `acme/widget@main` and a lock entry for it. -/
def lockedYml : PollapoYml :=
  { Deps := some ["acme/widget@main"]
    Root := some { Lock := some [("acme/widget@main", "abc123")] } }

/-- A root manifest with the dependency `acme/widget@main` and an empty lock table. -/
def unlockedYml : PollapoYml :=
  { Deps := some ["acme/widget@main"], Root := some { Lock := some [] } }

/-- A root manifest with the tagged dependency `acme/widget@v1.0.0` and an empty lock
table. -/
def taggedYml : PollapoYml :=
  { Deps := some ["acme/widget@v1.0.0"], Root := some { Lock := some [] } }

/-- A root manifest with the tagged dependency and no `root` section. -/
def noRootYml : PollapoYml :=
  { Deps := some ["acme/widget@v1.0.0"], Root := none }

/-- A root manifest with the tagged dependency and a `root` section without `lock`. -/
def noLockYml : PollapoYml :=
  { Deps := some ["acme/widget@v1.0.0"], Root := some { Lock := none } }

/-- A root manifest without dependencies whose lock table still has an entry. -/
def staleLockYml : PollapoYml :=
  { Deps := some [], Root := some { Lock := some [("acme/widget@main", "abc123")] } }

/-- A root manifest with a branch dependency and a tagged one. -/
def mixedYml : PollapoYml :=
  { Deps := some ["acme/widget@main", "acme/widget@v1.0.0"]
    Root := some { Lock := some [("acme/widget@main", "abc123")] } }

/-- A cache in which `a/b@v1` lists `c/d@v2`. -/
def chainEnv : Env :=
  testEnv ["main"] [("cache/a/b@v1/pollapo.yml", { Deps := some ["c/d@v2"], Root := none })]
    "def456"

/-- A root manifest with the single dependency `a/b@v1`. -/
def chainYml : PollapoYml :=
  { Deps := some ["a/b@v1"], Root := some { Lock := some [] } }

/-- A cache with a self-cycle and a diamond: `o/a@v1` lists `o/c@main` and itself,
`o/b@v1` lists `o/c@main`. -/
def diamondEnv : Env :=
  testEnv ["main"]
    [("cache/o/a@v1/pollapo.yml", { Deps := some ["o/c@main", "o/a@v1"], Root := none }),
     ("cache/o/b@v1/pollapo.yml", { Deps := some ["o/c@main"], Root := none })]
    "def456"

/-- A root manifest with the dependencies `o/a@v1` and `o/b@v1` and a lock entry for
`o/c@main`. -/
def diamondYml : PollapoYml :=
  { Deps := some ["o/a@v1", "o/b@v1"]
    Root := some { Lock := some [("o/c@main", "abc123")] } }

/-- The triples reachable from `diamondYml` in `diamondEnv`. -/
def diamondSet : List PollapoDep :=
  [⟨"o", "a", "v1"⟩, ⟨"o", "b", "v1"⟩, ⟨"o", "c", "main"⟩, ⟨"o", "c", "def456"⟩]

/-! ## Identity strings -/

theorem String_data (p : PollapoDep) :
    p.String.data = p.user.data ++ '/' :: (p.repo.data ++ '@' :: p.rev.data) := by
  simp [PollapoDep.String, String.data_append]

theorem append_cons_unique (c : Char) :
    ∀ (a₁ a₂ b₁ b₂ : List Char), c ∉ a₁ → c ∉ a₂ → a₁ ++ c :: b₁ = a₂ ++ c :: b₂ →
      a₁ = a₂ ∧ b₁ = b₂
  | [], [], _, _, _, _, h => by simpa using h
  | [], y :: a₂, _, _, _, h₂, h => by
    simp at h
    exact absurd h.1 (by intro e; exact h₂ (by simp [e]))
  | x :: a₁, [], _, _, h₁, _, h => by
    simp at h
    exact absurd h.1 (by intro e; exact h₁ (by simp [e]))
  | x :: a₁, y :: a₂, b₁, b₂, h₁, h₂, h => by
    simp only [List.cons_append, List.cons.injEq] at h
    have := append_cons_unique c a₁ a₂ b₁ b₂ (fun m => h₁ (List.mem_cons_of_mem _ m))
      (fun m => h₂ (List.mem_cons_of_mem _ m)) h.2
    simp [h.1, this.1, this.2]

theorem append_cons_unique_tail (c : Char) (a₁ a₂ b₁ b₂ : List Char)
    (n₁ : a₁ ≠ []) (n₂ : a₂ ≠ []) (h₁ : c ∉ a₁.tail) (h₂ : c ∉ a₂.tail)
    (h : a₁ ++ c :: b₁ = a₂ ++ c :: b₂) : a₁ = a₂ ∧ b₁ = b₂ := by
  cases a₁ with
  | nil => exact absurd rfl n₁
  | cons x t₁ =>
    cases a₂ with
    | nil => exact absurd rfl n₂
    | cons y t₂ =>
      simp only [List.cons_append, List.cons.injEq] at h
      have := append_cons_unique c t₁ t₂ b₁ b₂ h₁ h₂ h.2
      simp [h.1, this.1, this.2]

theorem String_inj_of_parsed {d₁ d₂ : PollapoDep} (p₁ : Parsed d₁) (p₂ : Parsed d₂)
    (h : d₁.String = d₂.String) : d₁ = d₂ := by
  have hd : d₁.String.data = d₂.String.data := by rw [h]
  rw [String_data, String_data] at hd
  obtain ⟨hu, hr⟩ := append_cons_unique_tail '/' _ _ _ _ p₁.1 p₂.1 p₁.2.1 p₂.2.1 hd
  obtain ⟨hr, hv⟩ := append_cons_unique_tail '@' _ _ _ _ p₁.2.2.1 p₂.2.2.1 p₁.2.2.2 p₂.2.2.2 hr
  cases d₁; cases d₂
  simp only [PollapoDep.mk.injEq]
  exact ⟨String.ext hu, String.ext hr, String.ext hv⟩

/-! ## The pattern combinators -/

theorem greedyPlusK_last {R : Type} (f : List Char → R) :
    ∀ (s acc : List Char),
      greedyPlusK (fun g _ => some (f g)) acc s =
        if s.takeWhile dot = [] then none else some (f (acc ++ s.takeWhile dot))
  | [], acc => by simp [greedyPlusK]
  | c :: cs, acc => by
    by_cases hc : dot c = true
    · simp only [greedyPlusK, hc, if_true, List.takeWhile_cons]
      rw [greedyPlusK_last f cs (acc ++ [c])]
      by_cases ht : cs.takeWhile dot = []
      · simp [ht]
      · simp [ht]
    · simp [greedyPlusK, hc, List.takeWhile_cons]

theorem takeWhile_dot_of_all {v : List Char} (h : ∀ x ∈ v, dot x = true) :
    v.takeWhile dot = v := by
  induction v with
  | nil => rfl
  | cons x v ih =>
    have hx : dot x = true := h x (List.mem_cons_self _ _)
    simp only [List.takeWhile_cons, hx, if_true]
    rw [ih (fun y hy => h y (List.mem_cons_of_mem _ hy))]

theorem lazyPlusK_lit {R : Type} (c : Char) (k : List Char → List Char → Option R)
    (t : List Char) (r : R) :
    ∀ (u acc : List Char), u ≠ [] → (∀ x ∈ u, dot x = true) → c ∉ u →
      k (acc ++ u) t = some r →
      lazyPlusK (fun g => litK c (k g)) acc (u ++ c :: t) = some r
  | [], _, hu, _, _, _ => absurd rfl hu
  | [x], acc, _, hd, _, hk => by
    have hx : dot x = true := hd x (List.mem_cons_self _ _)
    simp [lazyPlusK, hx, litK, hk]
  | x :: y :: u, acc, _, hd, hc, hk => by
    have hx : dot x = true := hd x (List.mem_cons_self _ _)
    have hy : y ≠ c := fun e => hc (by simp [e])
    have ih := lazyPlusK_lit c k t r (y :: u) (acc ++ [x]) (by simp)
      (fun z hz => hd z (List.mem_cons_of_mem _ hz))
      (fun m => hc (List.mem_cons_of_mem _ m)) (by simpa using hk)
    simp only [List.cons_append] at ih ⊢
    rw [lazyPlusK]
    simp only [hx, if_true, litK, hy, if_false]
    exact ih

theorem findSubmatch_of_some {R : Type} (m : List Char → Option R) (s : List Char) (r : R)
    (h : m s = some r) : findSubmatch m s = some r := by
  cases s with
  | nil => simpa [findSubmatch] using h
  | cons c cs => simp [findSubmatch, h]

theorem dot_of_ne_newline {s : String} (h : '\n' ∉ s.data) : ∀ x ∈ s.data, dot x = true := by
  intro x hx
  have : x ≠ '\n' := fun e => h (e ▸ hx)
  simp [dot, this]

theorem parseDep_String_of_wellformed (d : PollapoDep)
    (hu : d.user.data ≠ []) (hus : '/' ∉ d.user.data) (hun : '\n' ∉ d.user.data)
    (hr : d.repo.data ≠ []) (hrs : '@' ∉ d.repo.data) (hrn : '\n' ∉ d.repo.data)
    (hv : d.rev.data ≠ []) (hvn : '\n' ∉ d.rev.data) :
    parseDep d.String = some d := by
  have hg : greedyPlusK (fun g3 _ => some (d.user.data, d.repo.data, g3)) [] d.rev.data
      = some (d.user.data, d.repo.data, d.rev.data) := by
    rw [greedyPlusK_last, takeWhile_dot_of_all (dot_of_ne_newline hvn)]
    simp [hv]
  have h2 : lazyPlusK (fun g2 => litK '@'
      (greedyPlusK (fun g3 _ => some (d.user.data, g2, g3)) [])) []
      (d.repo.data ++ '@' :: d.rev.data) = some (d.user.data, d.repo.data, d.rev.data) :=
    lazyPlusK_lit '@' (fun g2 => greedyPlusK (fun g3 _ => some (d.user.data, g2, g3)) [])
      d.rev.data _ d.repo.data [] hr (dot_of_ne_newline hrn) hrs (by simpa using hg)
  have h1 : depPattern d.String.data = some (d.user.data, d.repo.data, d.rev.data) := by
    rw [String_data]
    exact lazyPlusK_lit '/' (fun g1 => lazyPlusK (fun g2 => litK '@'
      (greedyPlusK (fun g3 _ => some (g1, g2, g3)) [])) [])
      (d.repo.data ++ '@' :: d.rev.data) _ d.user.data [] hu (dot_of_ne_newline hun) hus
      (by simpa using h2)
  simp [parseDep, findSubmatch_of_some _ _ _ h1]

/-! ## What `parseDep` can return -/

theorem lazyPlusK_lit_inv {R : Type} (c : Char) (k : List Char → List Char → Option R)
    (r : R) :
    ∀ (s acc : List Char), lazyPlusK (fun g => litK c (k g)) acc s = some r →
      ∃ u t, u ≠ [] ∧ s = u ++ c :: t ∧ (∀ x ∈ u, dot x = true) ∧ k (acc ++ u) t = some r ∧
        ∀ p q, p ≠ [] → u = p ++ c :: q → k (acc ++ p) (q ++ c :: t) = none
  | [], _, h => by simp [lazyPlusK] at h
  | x :: cs, acc, h => by
    rw [lazyPlusK] at h
    by_cases hx : dot x = true
    · simp only [hx, if_true] at h
      cases hl : litK c (k (acc ++ [x])) cs with
      | some r' =>
        rw [hl] at h
        cases cs with
        | nil => simp [litK] at hl
        | cons y t =>
          by_cases hy : y = c
          · subst hy
            simp only [litK, if_true] at hl
            refine ⟨[x], t, by simp, by simp, ?_, ?_, ?_⟩
            · intro z hz
              rw [List.mem_singleton] at hz
              rw [hz]; exact hx
            · rw [hl]; simpa using h
            · intro p q hp e
              have := congrArg List.length e
              cases p with
              | nil => exact absurd rfl hp
              | cons a p => simp at this
          · simp [litK, hy] at hl
      | none =>
        rw [hl] at h
        obtain ⟨u, t, hu, hs, hd, hk, hmin⟩ := lazyPlusK_lit_inv c k r cs (acc ++ [x]) h
        refine ⟨x :: u, t, by simp, by simp [hs], ?_, by simpa using hk, ?_⟩
        · intro z hz
          rcases List.mem_cons.1 hz with e | m
          · simpa [e] using hx
          · exact hd z m
        · intro p q hp e
          cases p with
          | nil => exact absurd rfl hp
          | cons a p =>
            simp only [List.cons_append, List.cons.injEq] at e
            obtain ⟨rfl, e⟩ := e
            by_cases hp' : p = []
            · subst hp'
              simp only [List.nil_append] at e
              subst e
              rw [hs] at hl
              simpa [litK] using hl
            · have := hmin p q hp' e
              simpa using this
    · simp [hx] at h

theorem lazyPlusK_lit_isSome {R : Type} (c : Char) (k : List Char → List Char → Option R)
    (t : List Char) (hk : ∀ acc, (k acc t).isSome = true) :
    ∀ (u acc : List Char), u ≠ [] → (∀ x ∈ u, dot x = true) →
      (lazyPlusK (fun g => litK c (k g)) acc (u ++ c :: t)).isSome = true
  | [], _, hu, _ => absurd rfl hu
  | [x], acc, _, hd => by
    have hx : dot x = true := hd x (List.mem_cons_self _ _)
    have := hk (acc ++ [x])
    rw [Option.isSome_iff_exists] at this
    obtain ⟨r, hr⟩ := this
    simp [lazyPlusK, hx, litK, hr]
  | x :: y :: u, acc, _, hd => by
    have hx : dot x = true := hd x (List.mem_cons_self _ _)
    have ih := lazyPlusK_lit_isSome c k t hk (y :: u) (acc ++ [x]) (by simp)
      (fun z hz => hd z (List.mem_cons_of_mem _ hz))
    simp only [List.cons_append] at ih ⊢
    rw [lazyPlusK]
    simp only [hx, if_true]
    cases hl : litK c (k (acc ++ [x])) (y :: (u ++ c :: t)) with
    | some r => simp
    | none => simpa using ih

theorem findSubmatch_inv {R : Type} (m : List Char → Option R) (r : R) :
    ∀ s, findSubmatch m s = some r → ∃ s', m s' = some r
  | [], h => ⟨[], by simpa [findSubmatch] using h⟩
  | c :: cs, h => by
    rw [findSubmatch] at h
    cases hm : m (c :: cs) with
    | some r' => rw [hm] at h; exact ⟨c :: cs, by rw [hm]; simpa using h⟩
    | none => rw [hm] at h; exact findSubmatch_inv m r cs h

theorem depPattern_parsed {s g1 g2 g3 : List Char} (h : depPattern s = some (g1, g2, g3)) :
    g1 ≠ [] ∧ '/' ∉ g1.tail ∧ g2 ≠ [] ∧ '@' ∉ g2.tail := by
  unfold depPattern at h
  obtain ⟨u, t, hu, -, hud, hk, hmin⟩ := lazyPlusK_lit_inv '/' _ _ s [] h
  obtain ⟨u2, t2, hu2, ht, hud2, hk2, hmin2⟩ := lazyPlusK_lit_inv '@' _ _ t [] hk
  rw [greedyPlusK_last] at hk2
  by_cases hz : t2.takeWhile dot = []
  · simp [hz] at hk2
  · simp only [hz, if_false, Option.some.injEq, Prod.mk.injEq, List.nil_append] at hk2
    obtain ⟨e1, e2, -⟩ := hk2
    subst e1 e2
    have hsucc : ∀ (g : List Char) (acc : List Char),
        ((fun g2 => greedyPlusK (fun g3 _ => some (g, g2, g3)) []) acc t2).isSome = true := by
      intro g acc
      simp [greedyPlusK_last, hz]
    refine ⟨hu, ?_, hu2, ?_⟩
    · intro hmem
      cases u with
      | nil => exact absurd rfl hu
      | cons x u' =>
        simp only [List.tail_cons] at hmem
        obtain ⟨a, b, rfl⟩ := List.append_of_mem hmem
        have hnone := hmin (x :: a) b (by simp) (by simp)
        have hsome := lazyPlusK_lit_isSome '@'
          (fun g2 => greedyPlusK (fun g3 _ => some ([] ++ (x :: a), g2, g3)) []) t2
          (hsucc _) (b ++ '/' :: u2) [] (by simp) (by
            intro z hz
            rcases List.mem_append.1 hz with m | m
            · exact hud z (by simp [m])
            · rcases List.mem_cons.1 m with e | m
              · subst e; rfl
              · exact hud2 z m)
        rw [ht] at hnone
        simp only [List.append_assoc, List.cons_append] at hsome hnone
        rw [hnone] at hsome
        simp at hsome
    · intro hmem
      cases u2 with
      | nil => exact absurd rfl hu2
      | cons x u' =>
        simp only [List.tail_cons] at hmem
        obtain ⟨a, b, rfl⟩ := List.append_of_mem hmem
        have hnone := hmin2 (x :: a) b (by simp) (by simp)
        rw [greedyPlusK_last] at hnone
        have : (b ++ '@' :: t2).takeWhile dot ≠ [] := by
          cases b with
          | nil => simp [List.takeWhile_cons, dot]
          | cons y b =>
            have hy : dot y = true := hud2 y (by simp)
            simp [List.takeWhile_cons, hy]
        simp [this] at hnone

theorem parseDep_parsed {s : String} {d : PollapoDep} (h : parseDep s = some d) : Parsed d := by
  unfold parseDep at h
  cases hf : findSubmatch depPattern s.data with
  | none => rw [hf] at h; simp at h
  | some r =>
    obtain ⟨g1, g2, g3⟩ := r
    rw [hf] at h
    simp only [Option.some.injEq] at h
    subst h
    obtain ⟨s', hs'⟩ := findSubmatch_inv _ _ _ hf
    exact depPattern_parsed hs'

theorem mapM_parseDep_parsed (ss : List String) :
    ∀ (ds : List PollapoDep), ss.mapM parseDep = some ds → ∀ d ∈ ds, Parsed d := by
  induction ss with
  | nil =>
    intro ds h
    rw [List.mapM_nil] at h
    cases h
    simp
  | cons s ss ih =>
    intro ds h
    rw [List.mapM_cons] at h
    cases hp : parseDep s with
    | none => rw [hp] at h; simp at h
    | some d0 =>
      cases hm : ss.mapM parseDep with
      | none => rw [hp, hm] at h; simp at h
      | some ds0 =>
        rw [hp, hm] at h
        simp at h
        subst h
        intro d hd
        rcases List.mem_cons.1 hd with e | m
        · subst e; exact parseDep_parsed hp
        · exact ih ds0 hm d m

theorem deps_parsed {p : PollapoYml} {ds : List PollapoDep} (h : p.deps = some ds) :
    ∀ d ∈ ds, Parsed d := by
  unfold PollapoYml.deps at h
  cases hD : p.Deps with
  | none => rw [hD] at h; simp at h
  | some ss => rw [hD] at h; exact mapM_parseDep_parsed ss ds h

/-! ## One pass through the loop body -/

section Loop

variable (env : Env) (cacheDir : String) (fs : String → Bool) (L : PollapoRootLockTable)

theorem cacheDepsLoop_succ (fuel : Nat) (s : LoopState) :
    cacheDepsLoop env cacheDir fs L (fuel + 1) s =
      if (iteration env cacheDir fs L s).status = .running then
        cacheDepsLoop env cacheDir fs L fuel (iteration env cacheDir fs L s).state
      else iteration env cacheDir fs L s := by
  rw [cacheDepsLoop]
  rcases h : iteration env cacheDir fs L s with ⟨st, s1⟩
  cases st <;> simp

theorem iteration_nil {s : LoopState} (h : s.queue = []) :
    iteration env cacheDir fs L s = ⟨.closed, s⟩ := by
  simp [iteration, h]

theorem iteration_visited {s : LoopState} {dep : PollapoDep} {rest : List PollapoDep}
    (h : s.queue = dep :: rest) (hv : dep.String ∈ s.visitedDeps) :
    iteration env cacheDir fs L s = ⟨.running, { s with queue := rest }⟩ := by
  simp [iteration, h, hv]

theorem body_append (dep : PollapoDep) (s : LoopState) :
    (useCachePart env cacheDir fs dep s).map (revPart env L dep) =
      (bodyOn env cacheDir fs L dep).map s.append := by
  unfold bodyOn useCachePart
  by_cases hb : env.getRevType dep.rev = "branch"
  · simp [hb, revPart, LoopState.append, LoopState.init]
    split <;> simp
  · by_cases hc : fs (env.getYmlPath cacheDir dep) = true
    · simp only [hb, hc, ne_eq, not_false_eq_true, and_self, if_true]
      cases (env.loadPollapoYml (env.getYmlPath cacheDir dep)).deps with
      | none => rfl
      | some ds => simp [hb, revPart, LoopState.append, LoopState.init]
    · simp [hb, hc, revPart, LoopState.append, LoopState.init]

theorem iteration_fresh {s : LoopState} {dep : PollapoDep} {rest : List PollapoDep}
    (h : s.queue = dep :: rest) (hv : dep.String ∉ s.visitedDeps) :
    iteration env cacheDir fs L s =
      match bodyOn env cacheDir fs L dep with
      | none => ⟨.panicked, { s with
          queue := rest
          visitedDeps := s.visitedDeps ++ [dep.String]
          passed := s.passed ++ [dep] }⟩
      | some d => ⟨.running, LoopState.append { s with
          queue := rest
          visitedDeps := s.visitedDeps ++ [dep.String]
          passed := s.passed ++ [dep] } d⟩ := by
  have hb := body_append env cacheDir fs L dep { s with
          queue := rest
          visitedDeps := s.visitedDeps ++ [dep.String]
          passed := s.passed ++ [dep] }
  simp only [iteration, h, hv, if_false]
  cases hu : useCachePart env cacheDir fs dep { s with
          queue := rest
          visitedDeps := s.visitedDeps ++ [dep.String]
          passed := s.passed ++ [dep] } with
  | none =>
    rw [hu] at hb
    cases hd : bodyOn env cacheDir fs L dep with
    | none => rfl
    | some d => rw [hd] at hb; simp at hb
  | some s2 =>
    rw [hu] at hb
    cases hd : bodyOn env cacheDir fs L dep with
    | none => rw [hd] at hb; simp at hb
    | some d =>
      rw [hd] at hb
      simp only [Option.map_some', Option.some.injEq] at hb
      simp [hb]

/-! ## What the body adds for one dependency -/

theorem bodyOn_branch {dep : PollapoDep} (hb : env.getRevType dep.rev = "branch") :
    bodyOn env cacheDir fs L dep = some
      { queue := [{ dep with rev := commitHashOf env L dep }]
        visitedDeps := []
        sent := [{ typ := if useLock L dep then UseLockedCommitHash else CheckCommitHash,
                   dep := dep, revision := commitHashOf env L dep }]
        passed := []
        fetched := if !useLock L dep then [(dep.user, dep.repo, dep.rev)] else [] } := by
  unfold bodyOn useCachePart
  simp [hb, revPart, LoopState.init]

theorem bodyOn_cached {dep : PollapoDep} (hb : env.getRevType dep.rev ≠ "branch")
    (hc : fs (env.getYmlPath cacheDir dep) = true) :
    bodyOn env cacheDir fs L dep =
      ((env.loadPollapoYml (env.getYmlPath cacheDir dep)).deps).map fun ds =>
        { queue := ds
          visitedDeps := []
          sent := [{ typ := UseCache, dep := dep, revision := dep.rev },
                   { typ := Download, dep := dep, revision := dep.rev }]
          passed := []
          fetched := [] } := by
  unfold bodyOn useCachePart
  simp only [hb, hc, ne_eq, not_false_eq_true, and_self, if_true]
  cases (env.loadPollapoYml (env.getYmlPath cacheDir dep)).deps with
  | none => rfl
  | some ds => simp [hb, revPart, LoopState.init]

theorem bodyOn_uncached {dep : PollapoDep} (hb : env.getRevType dep.rev ≠ "branch")
    (hc : fs (env.getYmlPath cacheDir dep) ≠ true) :
    bodyOn env cacheDir fs L dep = some
      { queue := []
        visitedDeps := []
        sent := [{ typ := Download, dep := dep, revision := dep.rev }]
        passed := []
        fetched := [] } := by
  unfold bodyOn useCachePart
  simp [hb, hc, revPart, LoopState.init]

/-- The facts about the additions that the invariants need. -/
theorem bodyOn_facts {dep : PollapoDep} {d : LoopState}
    (h : bodyOn env cacheDir fs L dep = some d) :
    d.visitedDeps = [] ∧ d.passed = [] ∧ d.sent ≠ [] ∧ (∀ e ∈ d.sent, e.dep = dep) ∧
      (∀ e ∈ d.sent, e.locks → env.getRevType dep.rev = "branch") ∧
      (env.getRevType dep.rev = "branch" → ∃ e ∈ d.sent, e.locks) := by
  by_cases hb : env.getRevType dep.rev = "branch"
  · rw [bodyOn_branch env cacheDir fs L hb] at h
    simp only [Option.some.injEq] at h
    subst h
    refine ⟨rfl, rfl, by simp, by simp, fun _ _ _ => hb, fun _ => ?_⟩
    refine ⟨_, List.mem_singleton.2 rfl, ?_⟩
    unfold CacheDepsEvent.locks
    by_cases hu : useLock L dep = true <;> simp [hu]
  · by_cases hc : fs (env.getYmlPath cacheDir dep) = true
    · rw [bodyOn_cached env cacheDir fs L hb hc] at h
      cases hd : (env.loadPollapoYml (env.getYmlPath cacheDir dep)).deps with
      | none => rw [hd] at h; simp at h
      | some ds =>
        rw [hd] at h
        simp only [Option.map_some', Option.some.injEq] at h
        subst h
        refine ⟨rfl, rfl, by simp, by simp, ?_, fun h => absurd h hb⟩
        intro e he hl
        simp at he
        rcases he with rfl | rfl <;>
          simp [CacheDepsEvent.locks, UseCache, Download, UseLockedCommitHash,
            CheckCommitHash] at hl
    · rw [bodyOn_uncached env cacheDir fs L hb hc] at h
      simp only [Option.some.injEq] at h
      subst h
      refine ⟨rfl, rfl, by simp, by simp, ?_, fun h => absurd h hb⟩
      intro e he hl
      simp at he
      subst he
      simp [CacheDepsEvent.locks, Download, UseLockedCommitHash, CheckCommitHash] at hl

end Loop

/-! ## Invariants of the queue loop -/

section Invariants

variable (env : Env) (cacheDir : String) (fs : String → Bool) (L : PollapoRootLockTable)

theorem loop_invariant (P : LoopState → Prop)
    (hstep : ∀ s, P s → P (iteration env cacheDir fs L s).state) :
    ∀ (fuel : Nat) (s : LoopState), P s → P (cacheDepsLoop env cacheDir fs L fuel s).state
  | 0, s, h => by
    unfold cacheDepsLoop
    cases s.queue <;> exact h
  | fuel + 1, s, h => by
    rw [cacheDepsLoop_succ]
    by_cases hr : (iteration env cacheDir fs L s).status = .running
    · rw [if_pos hr]
      exact loop_invariant P hstep fuel _ (hstep s h)
    · rw [if_neg hr]
      exact hstep s h

/-- The three shapes of the variables after one pass. -/
theorem iteration_cases (s : LoopState) :
    (iteration env cacheDir fs L s).state = s ∨
    (∃ dep rest, s.queue = dep :: rest ∧ dep.String ∈ s.visitedDeps ∧
      iteration env cacheDir fs L s = ⟨.running, { s with queue := rest }⟩) ∨
    (∃ dep rest, s.queue = dep :: rest ∧ dep.String ∉ s.visitedDeps ∧
      ((bodyOn env cacheDir fs L dep = none ∧
        iteration env cacheDir fs L s = ⟨.panicked, { s with
          queue := rest
          visitedDeps := s.visitedDeps ++ [dep.String]
          passed := s.passed ++ [dep] }⟩) ∨
       (∃ d, bodyOn env cacheDir fs L dep = some d ∧
        iteration env cacheDir fs L s = ⟨.running, LoopState.append { s with
          queue := rest
          visitedDeps := s.visitedDeps ++ [dep.String]
          passed := s.passed ++ [dep] } d⟩))) := by
  cases hq : s.queue with
  | nil => left; rw [iteration_nil env cacheDir fs L hq]
  | cons dep rest =>
    right
    by_cases hv : dep.String ∈ s.visitedDeps
    · left; exact ⟨dep, rest, rfl, hv, iteration_visited env cacheDir fs L hq hv⟩
    · right
      refine ⟨dep, rest, rfl, hv, ?_⟩
      have := iteration_fresh env cacheDir fs L hq hv
      cases hb : bodyOn env cacheDir fs L dep with
      | none => left; rw [hb] at this; exact ⟨rfl, this⟩
      | some d => right; rw [hb] at this; exact ⟨d, rfl, this⟩

theorem Inv_iteration (s : LoopState) (h : Inv env s) :
    Inv env (iteration env cacheDir fs L s).state := by
  rcases iteration_cases env cacheDir fs L s with e | ⟨dep, rest, _, _, e⟩ |
      ⟨dep, rest, _, hv, ⟨hb, e⟩ | ⟨d, hb, e⟩⟩
  · rw [e]; exact h
  · rw [e]
    exact ⟨h.visited, h.nodup, h.sent_passed, h.locks_branch, h.branch_locks⟩
  · rw [e]
    have hb' : env.getRevType dep.rev ≠ "branch" := by
      intro hbr
      rw [bodyOn_branch env cacheDir fs L hbr] at hb
      simp at hb
    refine ⟨?_, ?_, ?_, h.locks_branch, ?_⟩
    · simp [h.visited]
    · simp only [List.map_append, List.map_cons, List.map_nil]
      rw [List.nodup_append]
      refine ⟨h.nodup, by simp, ?_⟩
      intro x hx hx'
      simp only [List.mem_singleton] at hx'
      subst hx'
      exact hv (h.visited ▸ hx)
    · intro ev hev
      exact List.mem_append_left _ (h.sent_passed ev hev)
    · intro x hx hbr
      simp only [List.mem_append, List.mem_singleton] at hx
      rcases hx with hx | rfl
      · exact h.branch_locks x hx hbr
      · exact absurd hbr hb'
  · rw [e]
    obtain ⟨f1, f2, -, f4, f5, f6⟩ := bodyOn_facts env cacheDir fs L hb
    refine ⟨?_, ?_, ?_, ?_, ?_⟩
    · simp [LoopState.append, f1, f2, h.visited]
    · simp only [LoopState.append, f2, List.append_nil, List.map_append, List.map_cons,
        List.map_nil]
      rw [List.nodup_append]
      refine ⟨h.nodup, by simp, ?_⟩
      intro x hx hx'
      simp only [List.mem_singleton] at hx'
      subst hx'
      exact hv (h.visited ▸ hx)
    · intro ev hev
      simp only [LoopState.append, List.mem_append, f2, List.append_nil,
        List.mem_singleton] at hev ⊢
      rcases hev with hev | hev
      · exact Or.inl (h.sent_passed ev hev)
      · exact Or.inr (f4 ev hev)
    · intro ev hev hl
      simp only [LoopState.append, List.mem_append] at hev
      rcases hev with hev | hev
      · exact h.locks_branch ev hev hl
      · rw [f4 ev hev]; exact f5 ev hev hl
    · intro x hx hbr
      simp only [LoopState.append, List.mem_append, f2, List.append_nil,
        List.mem_singleton] at hx ⊢
      rcases hx with hx | rfl
      · obtain ⟨ev, hev, hl, hd⟩ := h.branch_locks x hx hbr
        exact ⟨ev, Or.inl hev, hl, hd⟩
      · obtain ⟨ev, hev, hl⟩ := f6 hbr
        exact ⟨ev, Or.inr hev, hl, f4 ev hev⟩

theorem Inv_loop (fuel : Nat) (s : LoopState) (h : Inv env s) :
    Inv env (cacheDepsLoop env cacheDir fs L fuel s).state :=
  loop_invariant env cacheDir fs L (Inv env) (Inv_iteration env cacheDir fs L) fuel s h

theorem Inv_start (queue : List PollapoDep) :
    Inv env { LoopState.init with queue := queue } :=
  ⟨rfl, List.nodup_nil, by simp [LoopState.init], by simp [LoopState.init],
    by simp [LoopState.init]⟩

theorem Inv_init : Inv env LoopState.init :=
  ⟨rfl, List.nodup_nil, by simp [LoopState.init], by simp [LoopState.init],
    by simp [LoopState.init]⟩

theorem cacheDeps_of_lock {clean : Bool} {yml : PollapoYml} {root : PollapoRoot}
    {queue : List PollapoDep} (fuel : Nat) (hR : yml.Root = some root)
    (hL : root.Lock = some L) (hD : yml.deps = some queue) :
    cacheDeps env cacheDir clean yml fuel =
      cacheDepsLoop env cacheDir (env.cache cacheDir clean) L fuel
        { LoopState.init with queue := queue } := by
  simp only [cacheDeps, hR, hL, hD]

/-- Lines 83-84 either panic or enter the loop with the root's lock table and
dependencies. -/
theorem cacheDeps_cases (clean : Bool) (yml : PollapoYml) (fuel : Nat) :
    cacheDeps env cacheDir clean yml fuel = ⟨.panicked, LoopState.init⟩ ∨
    ∃ root lockTable queue, yml.Root = some root ∧ root.Lock = some lockTable ∧
      yml.deps = some queue ∧
      cacheDeps env cacheDir clean yml fuel =
        cacheDepsLoop env cacheDir (env.cache cacheDir clean) lockTable fuel
          { LoopState.init with queue := queue } := by
  cases hR : yml.Root with
  | none => left; simp only [cacheDeps, hR]
  | some root =>
    cases hL : root.Lock with
    | none => left; simp only [cacheDeps, hR, hL]
    | some lockTable =>
      cases hD : yml.deps with
      | none => left; simp only [cacheDeps, hR, hL, hD]
      | some queue =>
        right
        exact ⟨root, lockTable, queue, rfl, hL, rfl,
          cacheDeps_of_lock env cacheDir lockTable fuel hR hL hD⟩

/-- Every run of `cacheDeps`, whatever its status, is in a state of the invariant. -/
theorem Inv_cacheDeps (clean : Bool) (yml : PollapoYml) (fuel : Nat) :
    Inv env (cacheDeps env cacheDir clean yml fuel).state := by
  rcases cacheDeps_cases env cacheDir clean yml fuel with e | ⟨_, lockTable, queue, _, _, _, e⟩
  · rw [e]; exact Inv_init env
  · rw [e]; exact Inv_loop env cacheDir _ lockTable fuel _ (Inv_start env queue)

/-! ## Later passes only add -/

theorem Extends_refl (s : LoopState) : Extends s s :=
  ⟨[], [], by simp, by simp, by simp⟩

theorem Extends_iteration (s0 s : LoopState) (h : Extends s0 s) :
    Extends s0 (iteration env cacheDir fs L s).state := by
  obtain ⟨newP, newE, hp, he, hm⟩ := h
  rcases iteration_cases env cacheDir fs L s with e | ⟨dep, rest, _, _, e⟩ |
      ⟨dep, rest, _, hv, ⟨hb, e⟩ | ⟨d, hb, e⟩⟩
  · rw [e]; exact ⟨newP, newE, hp, he, hm⟩
  · rw [e]; exact ⟨newP, newE, hp, he, hm⟩
  · rw [e]
    refine ⟨newP ++ [dep], newE, by simp [hp], he, ?_⟩
    intro ev hev
    exact List.mem_append_left _ (hm ev hev)
  · rw [e]
    obtain ⟨-, f2, -, f4, -, -⟩ := bodyOn_facts env cacheDir fs L hb
    refine ⟨newP ++ [dep], newE ++ d.sent, by simp [LoopState.append, hp, f2],
      by simp [LoopState.append, he], ?_⟩
    intro ev hev
    rcases List.mem_append.1 hev with hev | hev
    · exact List.mem_append_left _ (hm ev hev)
    · exact List.mem_append_right _ (by simp [f4 ev hev])

theorem Extends_loop (fuel : Nat) (s : LoopState) :
    Extends s (cacheDepsLoop env cacheDir fs L fuel s).state :=
  loop_invariant env cacheDir fs L (Extends s) (Extends_iteration env cacheDir fs L s)
    fuel s (Extends_refl s)

theorem cacheDepsLoop_nil (fuel : Nat) {s : LoopState} (h : s.queue = []) :
    cacheDepsLoop env cacheDir fs L fuel s = ⟨.closed, s⟩ := by
  cases fuel with
  | zero => simp [cacheDepsLoop, h]
  | succ n => rw [cacheDepsLoop_succ, iteration_nil env cacheDir fs L h]; simp

theorem cacheDepsLoop_zero_state (s : LoopState) :
    (cacheDepsLoop env cacheDir fs L 0 s).state = s := by
  unfold cacheDepsLoop
  cases s.queue <;> rfl

theorem cacheDepsLoop_zero_status (s : LoopState) :
    (cacheDepsLoop env cacheDir fs L 0 s).status ≠ .panicked := by
  unfold cacheDepsLoop
  cases s.queue <;> simp

/-- Fuel adds up: a run that is still running continues from its state. -/
theorem cacheDepsLoop_add (m : Nat) :
    ∀ (n : Nat) (s : LoopState),
      cacheDepsLoop env cacheDir fs L (n + m) s =
        if (cacheDepsLoop env cacheDir fs L n s).status = .running then
          cacheDepsLoop env cacheDir fs L m (cacheDepsLoop env cacheDir fs L n s).state
        else cacheDepsLoop env cacheDir fs L n s
  | 0, s => by
    cases hq : s.queue with
    | nil =>
      rw [cacheDepsLoop_nil env cacheDir fs L _ hq, cacheDepsLoop_nil env cacheDir fs L _ hq]
      simp
    | cons d rest =>
      have : cacheDepsLoop env cacheDir fs L 0 s = ⟨.running, s⟩ := by
        simp [cacheDepsLoop, hq]
      rw [this]; simp
  | n + 1, s => by
    have e : n + 1 + m = (n + m) + 1 := by omega
    rw [e, cacheDepsLoop_succ, cacheDepsLoop_succ]
    by_cases hr : (iteration env cacheDir fs L s).status = .running
    · rw [if_pos hr, if_pos hr]
      exact cacheDepsLoop_add m n _
    · rw [if_neg hr, if_neg hr, if_neg hr]

/-- More fuel only adds events and passed dependencies. -/
theorem Extends_fuel {n m : Nat} (hnm : n ≤ m) (s : LoopState) :
    Extends (cacheDepsLoop env cacheDir fs L n s).state
      (cacheDepsLoop env cacheDir fs L m s).state := by
  obtain ⟨k, rfl⟩ := Nat.exists_eq_add_of_le hnm
  rw [cacheDepsLoop_add]
  by_cases hr : (cacheDepsLoop env cacheDir fs L n s).status = .running
  · rw [if_pos hr]; exact Extends_loop env cacheDir fs L k _
  · rw [if_neg hr]; exact Extends_refl _

/-- A run that closed the channel stays the same with more fuel. -/
theorem cacheDepsLoop_closed_mono {n m : Nat} (hnm : n ≤ m) (s : LoopState)
    (h : (cacheDepsLoop env cacheDir fs L n s).status = .closed) :
    cacheDepsLoop env cacheDir fs L m s = cacheDepsLoop env cacheDir fs L n s := by
  obtain ⟨k, rfl⟩ := Nat.exists_eq_add_of_le hnm
  rw [cacheDepsLoop_add, if_neg (by rw [h]; simp)]

end Invariants

/-! ## The lock table built from the events -/

theorem mem_keys_set (t : PollapoRootLockTable) (k v k' : String) :
    k' ∈ (t.set k v).keys ↔ k' = k ∨ k' ∈ t.keys := by
  simp only [PollapoRootLockTable.set, PollapoRootLockTable.keys, List.map_cons,
    List.mem_cons, List.mem_map, List.mem_filter]
  constructor
  · rintro (h | ⟨e, ⟨he, -⟩, rfl⟩)
    · exact Or.inl h
    · exact Or.inr ⟨e, he, rfl⟩
  · rintro (h | ⟨e, he, rfl⟩)
    · exact Or.inl h
    · by_cases hk : e.1 = k
      · exact Or.inl hk
      · exact Or.inr ⟨e, ⟨he, by simpa using hk⟩, rfl⟩

theorem mem_keys_foldl (k : String) :
    ∀ (evs : List CacheDepsEvent) (t : PollapoRootLockTable),
      k ∈ (evs.foldl (fun lockTable r =>
          if r.typ = UseLockedCommitHash ∨ r.typ = CheckCommitHash then
            lockTable.set r.dep.String r.revision
          else lockTable) t).keys ↔
        k ∈ t.keys ∨ ∃ e ∈ evs, e.locks ∧ e.dep.String = k
  | [], t => by simp
  | e :: evs, t => by
    rw [List.foldl_cons, mem_keys_foldl k evs]
    by_cases hl : e.typ = UseLockedCommitHash ∨ e.typ = CheckCommitHash
    · rw [if_pos hl, mem_keys_set]
      constructor
      · rintro ((h | h) | ⟨e', he', h⟩)
        · exact Or.inr ⟨e, List.mem_cons_self _ _, hl, h.symm⟩
        · exact Or.inl h
        · exact Or.inr ⟨e', List.mem_cons_of_mem _ he', h⟩
      · rintro (h | ⟨e', he', h⟩)
        · exact Or.inl (Or.inr h)
        · rcases List.mem_cons.1 he' with rfl | he'
          · exact Or.inl (Or.inl h.2.symm)
          · exact Or.inr ⟨e', he', h⟩
    · rw [if_neg hl]
      constructor
      · rintro (h | ⟨e', he', h⟩)
        · exact Or.inl h
        · exact Or.inr ⟨e', List.mem_cons_of_mem _ he', h⟩
      · rintro (h | ⟨e', he', h⟩)
        · exact Or.inl h
        · rcases List.mem_cons.1 he' with rfl | he'
          · exact absurd h.1 hl
          · exact Or.inr ⟨e', he', h⟩

theorem mem_keys_installLockTable (k : String) (evs : List CacheDepsEvent) :
    k ∈ (installLockTable evs).keys ↔ ∃ e ∈ evs, e.locks ∧ e.dep.String = k := by
  unfold installLockTable
  rw [mem_keys_foldl]
  simp [PollapoRootLockTable.keys]

/-- In a state of the invariant the keys of the table are the identity strings of the
passed dependencies classified as branches. -/
theorem Inv_keys {env : Env} {s : LoopState} (h : Inv env s) (k : String) :
    k ∈ (installLockTable s.sent).keys ↔
      ∃ d ∈ s.passed, env.getRevType d.rev = "branch" ∧ d.String = k := by
  rw [mem_keys_installLockTable]
  constructor
  · rintro ⟨e, he, hl, hk⟩
    exact ⟨e.dep, h.sent_passed e he, h.locks_branch e he hl, hk⟩
  · rintro ⟨d, hd, hb, hk⟩
    obtain ⟨e, he, hl, hed⟩ := h.branch_locks d hd hb
    exact ⟨e, he, hl, by rw [hed]; exact hk⟩

/-- In a state of the invariant two passed dependencies with the same identity string are
the same dependency. -/
theorem Inv_passed_inj {env : Env} {s : LoopState} (h : Inv env s) {d₁ d₂ : PollapoDep}
    (h₁ : d₁ ∈ s.passed) (h₂ : d₂ ∈ s.passed) (e : d₁.String = d₂.String) : d₁ = d₂ :=
  List.inj_on_of_nodup_map h.nodup h₁ h₂ e

theorem Inv_not_key {env : Env} {s : LoopState} (h : Inv env s) {d : PollapoDep}
    (hd : d ∈ s.passed) (hb : env.getRevType d.rev ≠ "branch") :
    d.String ∉ (installLockTable s.sent).keys := by
  intro hk
  obtain ⟨d', hd', hb', e⟩ := (Inv_keys h _).1 hk
  have := Inv_passed_inj h hd' hd e
  subst this
  exact hb hb'

/-! ## Termination on a finite reachable set -/

section Termination

variable (env : Env) (cacheDir : String) (fs : String → Bool) (L : PollapoRootLockTable)

theorem bodyOn_closed {S : List PollapoDep} (hC : ReachClosed env cacheDir fs L S)
    {d : PollapoDep} (hd : d ∈ S) :
    ∃ δ, bodyOn env cacheDir fs L d = some δ ∧ δ.visitedDeps = [] ∧
      ∀ x ∈ δ.queue, x ∈ S := by
  by_cases hb : env.getRevType d.rev = "branch"
  · refine ⟨_, bodyOn_branch env cacheDir fs L hb, rfl, ?_⟩
    intro x hx
    simp only [List.mem_singleton] at hx
    subst hx
    exact hC.2 d hd hb
  · by_cases hc : fs (env.getYmlPath cacheDir d) = true
    · obtain ⟨ds, hds, hsub⟩ := hC.1 d hd hb hc
      refine ⟨_, by rw [bodyOn_cached env cacheDir fs L hb hc, hds]; rfl, rfl, hsub⟩
    · exact ⟨_, bodyOn_uncached env cacheDir fs L hb hc, rfl, by simp⟩

theorem unvisited_lt {S : List PollapoDep} {s s' : LoopState} {d : PollapoDep}
    (hd : d ∈ S) (hv : d.String ∉ s.visitedDeps)
    (hs' : s'.visitedDeps = s.visitedDeps ++ [d.String]) :
    unvisited S s' < unvisited S s := by
  unfold unvisited
  apply Finset.card_lt_card
  rw [Finset.ssubset_iff_of_subset]
  · refine ⟨d.String, ?_, ?_⟩
    · simp only [Finset.mem_sdiff, List.mem_toFinset, List.mem_map]
      exact ⟨⟨d, hd, rfl⟩, hv⟩
    · simp [hs']
  · intro x hx
    simp only [Finset.mem_sdiff, List.mem_toFinset, hs', List.mem_append, List.mem_singleton,
      not_or] at hx ⊢
    exact ⟨hx.1, hx.2.1⟩

theorem loop_terminates {S : List PollapoDep} (hC : ReachClosed env cacheDir fs L S) :
    ∀ (n : Nat) (q : List PollapoDep) (s : LoopState), s.queue = q → (∀ d ∈ q, d ∈ S) →
      unvisited S s ≤ n →
      ∃ fuel, (cacheDepsLoop env cacheDir fs L fuel s).status = .closed := by
  intro n
  induction n using Nat.strong_induction_on with
  | _ n IH =>
    intro q
    induction q with
    | nil =>
      intro s hq _ _
      exact ⟨0, by rw [cacheDepsLoop_nil env cacheDir fs L 0 hq]⟩
    | cons d rest ih =>
      intro s hq hS hμ
      by_cases hv : d.String ∈ s.visitedDeps
      · obtain ⟨fuel, hf⟩ := ih { s with queue := rest } rfl
          (fun x hx => hS x (List.mem_cons_of_mem _ hx)) hμ
        refine ⟨fuel + 1, ?_⟩
        rw [cacheDepsLoop_succ, iteration_visited env cacheDir fs L hq hv]
        simpa using hf
      · have hd : d ∈ S := hS d (List.mem_cons_self _ _)
        obtain ⟨δ, hδ, hδv, hδq⟩ := bodyOn_closed env cacheDir fs L hC hd
        have hit := iteration_fresh env cacheDir fs L hq hv
        rw [hδ] at hit
        have hlt := @unvisited_lt S s
          (LoopState.append { s with
            queue := rest
            visitedDeps := s.visitedDeps ++ [d.String]
            passed := s.passed ++ [d] } δ) d hd hv (by simp [LoopState.append, hδv])
        obtain ⟨fuel, hf⟩ := IH _ (lt_of_lt_of_le hlt hμ) _ _ rfl (by
          intro x hx
          simp only [LoopState.append, List.mem_append] at hx
          rcases hx with hx | hx
          · exact hS x (List.mem_cons_of_mem _ hx)
          · exact hδq x hx) le_rfl
        refine ⟨fuel + 1, ?_⟩
        rw [cacheDepsLoop_succ, hit]
        simpa using hf

end Termination

/-! ## Blocks of events in queue order -/

theorem Grouped.mem_of_mem {es m : List PollapoDep} (h : Grouped es m) :
    ∀ e ∈ es, e ∈ m := by
  induction h with
  | nil => simp
  | cons e k hk _ ih =>
    intro x hx
    rcases List.mem_cons.1 hx with rfl | hx
    · exact List.mem_append_left _ (List.mem_replicate.2 ⟨by omega, rfl⟩)
    · exact List.mem_append_right _ (ih x hx)

theorem Grouped.mem_of_mem_right {es m : List PollapoDep} (h : Grouped es m) :
    ∀ x ∈ m, x ∈ es := by
  induction h with
  | nil => simp
  | cons e k hk _ ih =>
    intro x hx
    rcases List.mem_append.1 hx with hx | hx
    · rw [(List.mem_replicate.1 hx).2]; exact List.mem_cons_self _ _
    · exact List.mem_cons_of_mem _ (ih x hx)

theorem Grouped.pairwise_indexOf {es m : List PollapoDep} (h : Grouped es m)
    (hn : es.Nodup) : es.Pairwise (fun x y => m.indexOf x < m.indexOf y) := by
  induction h with
  | nil => exact List.Pairwise.nil
  | @cons e k es m hk hg ih =>
    rw [List.nodup_cons] at hn
    rw [List.pairwise_cons]
    have hrep : e ∈ List.replicate k e := List.mem_replicate.2 ⟨by omega, rfl⟩
    have hnot : ∀ y ∈ es, y ∉ List.replicate k e := by
      intro y hy hm
      rw [(List.mem_replicate.1 hm).2] at hy
      exact hn.1 hy
    constructor
    · intro y hy
      rw [List.indexOf_append_of_mem hrep, List.indexOf_append_of_not_mem (hnot y hy)]
      have : List.indexOf e (List.replicate k e) < (List.replicate k e).length :=
        List.indexOf_lt_length.2 hrep
      omega
    · refine (ih hn.2).imp_of_mem ?_
      intro x y hx hy hlt
      rw [List.indexOf_append_of_not_mem (hnot x hx),
        List.indexOf_append_of_not_mem (hnot y hy)]
      omega

section Front

variable (env : Env) (cacheDir : String) (fs : String → Bool) (L : PollapoRootLockTable)

/-- The dependencies at the front of the queue, with fresh and distinct identity strings
and bodies that do not panic, are processed one per pass, in order. -/
theorem loop_front :
    ∀ (es : List PollapoDep) (s : LoopState) (tail : List PollapoDep),
      s.queue = es ++ tail → (es.map PollapoDep.String).Nodup →
      (∀ e ∈ es, e.String ∉ s.visitedDeps) →
      (∀ e ∈ es, bodyOn env cacheDir fs L e ≠ none) →
      ∃ M : List CacheDepsEvent, Grouped es (M.map (·.dep)) ∧
        (cacheDepsLoop env cacheDir fs L es.length s).state.sent = s.sent ++ M ∧
        (cacheDepsLoop env cacheDir fs L es.length s).state.passed = s.passed ++ es
  | [], s, _, _, _, _, _ => by
    refine ⟨[], Grouped.nil, ?_, ?_⟩ <;>
      simp [cacheDepsLoop_zero_state]
  | e :: es, s, tail, hq, hn, hv, hb => by
    obtain ⟨δ, hδ⟩ := Option.ne_none_iff_exists'.1 (hb e (List.mem_cons_self _ _))
    have hit := @iteration_fresh env cacheDir fs L s e (es ++ tail) (by simpa using hq)
      (hv e (List.mem_cons_self _ _))
    rw [hδ] at hit
    obtain ⟨f1, f2, f3, f4, -, -⟩ := bodyOn_facts env cacheDir fs L hδ
    rw [List.map_cons, List.nodup_cons] at hn
    obtain ⟨M, hg, hs, hp⟩ := loop_front es
      (LoopState.append { s with
        queue := es ++ tail
        visitedDeps := s.visitedDeps ++ [e.String]
        passed := s.passed ++ [e] } δ) (tail ++ δ.queue)
      (by simp [LoopState.append]) hn.2
      (by
        intro x hx hmem
        simp only [LoopState.append, f1, List.append_nil, List.mem_append,
          List.mem_singleton] at hmem
        rcases hmem with hmem | hmem
        · exact hv x (List.mem_cons_of_mem _ hx) hmem
        · exact hn.1 (hmem ▸ List.mem_map_of_mem _ hx))
      (fun x hx => hb x (List.mem_cons_of_mem _ hx))
    refine ⟨δ.sent ++ M, ?_, ?_, ?_⟩
    · rw [List.map_append]
      have : δ.sent.map (·.dep) = List.replicate δ.sent.length e := by
        rw [List.eq_replicate_iff]
        refine ⟨by simp, ?_⟩
        intro b hb'
        obtain ⟨ev, hev, rfl⟩ := List.mem_map.1 hb'
        exact f4 ev hev
      rw [this]
      exact Grouped.cons e _ (List.length_pos.2 f3) hg
    · rw [List.length_cons, cacheDepsLoop_succ, hit]
      simp only [if_true]
      rw [hs]
      simp [LoopState.append]
    · rw [List.length_cons, cacheDepsLoop_succ, hit]
      simp only [if_true]
      rw [hp]
      simp [LoopState.append, f2]

end Front

/-! ## Breadth-first order -/

theorem bodyOn_ne_none (env : Env) (cacheDir : String) (fs : String → Bool)
    (L : PollapoRootLockTable) (e : PollapoDep)
    (h : env.getRevType e.rev ≠ "branch" → fs (env.getYmlPath cacheDir e) = true →
      (env.loadPollapoYml (env.getYmlPath cacheDir e)).deps ≠ none) :
    bodyOn env cacheDir fs L e ≠ none := by
  by_cases hb : env.getRevType e.rev = "branch"
  · rw [bodyOn_branch env cacheDir fs L hb]; simp
  · by_cases hc : fs (env.getYmlPath cacheDir e) = true
    · rw [bodyOn_cached env cacheDir fs L hb hc]
      obtain ⟨ds, hds⟩ := Option.ne_none_iff_exists'.1 (h hb hc)
      rw [hds]; simp
    · rw [bodyOn_uncached env cacheDir fs L hb hc]; simp

/-- The shape of the trace of a run that starts with one cached dependency `a` that is not
a branch and lists `es`: two events for `a`, one block for each of `es` in order, and then
events about neither. -/
theorem trace_shape (env : Env) (cacheDir : String) (fs : String → Bool)
    (L : PollapoRootLockTable) (a : PollapoDep) (es : List PollapoDep) (fuel : Nat)
    (hab : env.getRevType a.rev ≠ "branch") (hac : fs (env.getYmlPath cacheDir a) = true)
    (had : (env.loadPollapoYml (env.getYmlPath cacheDir a)).deps = some es)
    (hn : (es.map PollapoDep.String).Nodup) (hae : ∀ e ∈ es, e.String ≠ a.String)
    (hok : ∀ e ∈ es, bodyOn env cacheDir fs L e ≠ none)
    (hfuel : es.length + 1 ≤ fuel) :
    ∃ m r : List PollapoDep, Grouped es m ∧ a ∉ r ∧
      (cacheDepsLoop env cacheDir fs L fuel
        { LoopState.init with queue := [a] }).state.sent.map (·.dep) =
        a :: a :: (m ++ r) := by
  have hit := @iteration_fresh env cacheDir fs L
    { LoopState.init with queue := [a] } a [] rfl
    (by simp [LoopState.init])
  rw [bodyOn_cached env cacheDir fs L hab hac, had] at hit
  simp only [Option.map_some'] at hit
  obtain ⟨M, hg, hs, hp⟩ := loop_front env cacheDir fs L es
    (LoopState.append { LoopState.init with
        queue := []
        visitedDeps := LoopState.init.visitedDeps ++ [a.String]
        passed := LoopState.init.passed ++ [a] }
      { queue := es
        visitedDeps := []
        sent := [{ typ := UseCache, dep := a, revision := a.rev },
                 { typ := Download, dep := a, revision := a.rev }]
        passed := []
        fetched := [] }) []
    (by simp [LoopState.append]) hn
    (by
      intro e he hm
      simp [LoopState.append, LoopState.init] at hm
      exact hae e he hm)
    hok
  have hstep : (cacheDepsLoop env cacheDir fs L (es.length + 1)
      { LoopState.init with queue := [a] }) = cacheDepsLoop env cacheDir fs L es.length
        (LoopState.append { LoopState.init with
            queue := []
            visitedDeps := LoopState.init.visitedDeps ++ [a.String]
            passed := LoopState.init.passed ++ [a] }
          { queue := es
            visitedDeps := []
            sent := [{ typ := UseCache, dep := a, revision := a.rev },
                     { typ := Download, dep := a, revision := a.rev }]
            passed := []
            fetched := [] }) := by
    rw [cacheDepsLoop_succ, hit]
    simp
  obtain ⟨newP, newE, hP, hE, hmem⟩ := Extends_fuel env cacheDir fs L hfuel
    { LoopState.init with queue := [a] }
  rw [hstep, hs] at hE
  rw [hstep, hp] at hP
  have hinv := Inv_loop env cacheDir fs L fuel _ (Inv_start env [a])
  refine ⟨M.map (·.dep), newE.map (·.dep), hg, ?_, ?_⟩
  · intro hmem'
    obtain ⟨ev, hev, hd⟩ := List.mem_map.1 hmem'
    have haP : a ∈ newP := hd ▸ hmem ev hev
    have hnd := hinv.nodup
    rw [hP] at hnd
    simp only [LoopState.append, LoopState.init, List.nil_append, List.append_nil,
      List.map_append, List.map_cons, List.map_nil, List.singleton_append] at hnd
    rw [List.cons_append, List.nodup_cons] at hnd
    exact hnd.1 (List.mem_append_right _ (List.mem_map_of_mem _ haP))
  · rw [hE]
    simp [LoopState.append, LoopState.init]

/-! ## The claims of the specification -/

/-- Claim C1 (lock reuse), as the code behaves: with the root dependency
`acme/widget@main` classified as a branch and the lock entry
`"acme/widget@main": "abc123"`, the traversal closes the channel after having called
`FetchCommitStatus("acme", "widget", "main")` once; the one event for the dependency has
type `CheckCommitHash` and carries the fetched hash `def456`, not type
`UseLockedCommitHash` with the locked hash `abc123`. -/
theorem lock_reuse_asks_remote :
    (cacheDeps acmeEnv "cache" false lockedYml 3).status = .closed ∧
    (cacheDeps acmeEnv "cache" false lockedYml 3).state.sent =
      [{ typ := CheckCommitHash, dep := ⟨"acme", "widget", "main"⟩, revision := "def456" },
       { typ := Download, dep := ⟨"acme", "widget", "def456"⟩, revision := "def456" }] ∧
    (cacheDeps acmeEnv "cache" false lockedYml 3).state.fetched =
      [("acme", "widget", "main")] := by
  decide

/-- Claim C2 (lock update), as the code behaves: with the root dependency
`acme/widget@main` classified as a branch and an empty lock table, the traversal closes
the channel without any call of `FetchCommitStatus`; the event for the dependency has type
`UseLockedCommitHash` with the empty revision, and the lock table `RunE` builds maps
`acme/widget@main` to the empty string. -/
theorem lock_update_skips_remote :
    (cacheDeps acmeEnv "cache" false unlockedYml 3).status = .closed ∧
    (cacheDeps acmeEnv "cache" false unlockedYml 3).state.sent =
      [{ typ := UseLockedCommitHash, dep := ⟨"acme", "widget", "main"⟩, revision := "" },
       { typ := Download, dep := ⟨"acme", "widget", ""⟩, revision := "" }] ∧
    (cacheDeps acmeEnv "cache" false unlockedYml 3).state.fetched = [] ∧
    installLockTable (cacheDeps acmeEnv "cache" false unlockedYml 3).state.sent =
      [("acme/widget@main", "")] := by
  decide

/-- Claim C4 (one event per visited node), as the code behaves: the tagged dependency
`acme/widget@v1.0.0`, whose manifest is in the cache, passes the guard once and
contributes two events, `UseCache` followed by `Download`. -/
theorem cached_dependency_sends_two_events :
    (cacheDeps acmeCachedEnv "cache" false taggedYml 2).status = .closed ∧
    (cacheDeps acmeCachedEnv "cache" false taggedYml 2).state.passed =
      [⟨"acme", "widget", "v1.0.0"⟩] ∧
    (cacheDeps acmeCachedEnv "cache" false taggedYml 2).state.sent =
      [{ typ := UseCache, dep := ⟨"acme", "widget", "v1.0.0"⟩, revision := "v1.0.0" },
       { typ := Download, dep := ⟨"acme", "widget", "v1.0.0"⟩, revision := "v1.0.0" }] := by
  decide

/-- Claim C9 (the lock section is optional), as the code behaves: on a root manifest
without `root` section, or with a `root` section without `lock`, line 83 panics before
any event is sent, whatever the fuel, while the same manifest with an empty lock table
closes the channel after one `Download` event. -/
theorem missing_lock_section_panics :
    (∀ fuel, cacheDeps acmeEnv "cache" false noRootYml fuel =
      ⟨.panicked, LoopState.init⟩) ∧
    (∀ fuel, cacheDeps acmeEnv "cache" false noLockYml fuel =
      ⟨.panicked, LoopState.init⟩) ∧
    (cacheDeps acmeEnv "cache" false taggedYml 2).status = .closed ∧
    (cacheDeps acmeEnv "cache" false taggedYml 2).state.sent =
      [{ typ := Download, dep := ⟨"acme", "widget", "v1.0.0"⟩, revision := "v1.0.0" }] := by
  refine ⟨fun _ => rfl, fun _ => rfl, by decide, by decide⟩

/-- Claim C8 as stated fails: the triples `(a/b, c, v1)` and `(a, b/c, v1)` differ and
have the same identity string `a/b/c@v1`. -/
theorem String_not_injective :
    ¬ ∀ d₁ d₂ : PollapoDep, d₁.String = d₂.String ↔
      (d₁.user = d₂.user ∧ d₁.repo = d₂.repo ∧ d₁.rev = d₂.rev) := by
  intro h
  have := (h ⟨"a/b", "c", "v1"⟩ ⟨"a", "b/c", "v1"⟩).1 (by decide)
  exact absurd this.1 (by decide)

/-- Claim C8, amended: for dependencies whose `user` contains no `/` and whose `repo`
contains no `@`, the identity strings agree exactly when the triples agree. -/
theorem String_injective_of_separators (d₁ d₂ : PollapoDep)
    (hu₁ : '/' ∉ d₁.user.data) (hr₁ : '@' ∉ d₁.repo.data)
    (hu₂ : '/' ∉ d₂.user.data) (hr₂ : '@' ∉ d₂.repo.data) :
    d₁.String = d₂.String ↔
      (d₁.user = d₂.user ∧ d₁.repo = d₂.repo ∧ d₁.rev = d₂.rev) := by
  constructor
  · intro h
    have hd : d₁.String.data = d₂.String.data := by rw [h]
    rw [String_data, String_data] at hd
    obtain ⟨hu, hrest⟩ := append_cons_unique '/' _ _ _ _ hu₁ hu₂ hd
    obtain ⟨hr, hv⟩ := append_cons_unique '@' _ _ _ _ hr₁ hr₂ hrest
    exact ⟨String.ext hu, String.ext hr, String.ext hv⟩
  · rintro ⟨hu, hr, hv⟩
    unfold PollapoDep.String
    rw [hu, hr, hv]

/-- The amended claim C8 at `acme/widget@main` and `acme/widget@v1.0.0`. -/
theorem String_injective_of_separators_witness :
    ('/' ∉ ("acme" : String).data ∧ '@' ∉ ("widget" : String).data) ∧
    ((PollapoDep.mk "acme" "widget" "main").String =
        (PollapoDep.mk "acme" "widget" "v1.0.0").String ↔
      ("acme" = "acme" ∧ "widget" = "widget" ∧ "main" = "v1.0.0")) :=
  ⟨by decide, String_injective_of_separators ⟨"acme", "widget", "main"⟩
    ⟨"acme", "widget", "v1.0.0"⟩ (by decide) (by decide) (by decide) (by decide)⟩

/-- Claim C10: for every dependency whose `user` is not empty and contains no `/`, whose
`repo` is not empty and contains no `@`, whose `rev` is not empty, and none of whose
fields contains a newline, `parseDep` applied to its identity string returns (does not
panic) and returns the dependency itself. -/
theorem parseDep_String_roundtrip (d : PollapoDep)
    (hu : d.user ≠ "") (hus : '/' ∉ d.user.data) (hun : '\n' ∉ d.user.data)
    (hr : d.repo ≠ "") (hrs : '@' ∉ d.repo.data) (hrn : '\n' ∉ d.repo.data)
    (hv : d.rev ≠ "") (hvn : '\n' ∉ d.rev.data) :
    parseDep d.String = some d :=
  parseDep_String_of_wellformed d (fun h => hu (String.ext h)) hus hun
    (fun h => hr (String.ext h)) hrs hrn (fun h => hv (String.ext h)) hvn

/-- Claim C10 at a dependency whose `repo` contains `/` and whose `rev` contains `/` and
`@`. -/
theorem parseDep_String_roundtrip_witness :
    (PollapoDep.mk "acme" "proto/widget" "feature/x@1").String =
        "acme/proto/widget@feature/x@1" ∧
    parseDep (PollapoDep.mk "acme" "proto/widget" "feature/x@1").String =
      some ⟨"acme", "proto/widget", "feature/x@1"⟩ :=
  ⟨by decide, parseDep_String_roundtrip ⟨"acme", "proto/widget", "feature/x@1"⟩
    (by decide) (by decide) (by decide) (by decide) (by decide) (by decide) (by decide)
    (by decide)⟩

/-- Claim C3: for every classifier, cache, lock table, remote and manifest loader, and
every finite set `S` of triples that contains the root dependencies and everything the
traversal can reach from it (cached manifests that `deps()` can read, and the derived
triple of each branch), the queue loop of `cacheDeps` leaves the loop and closes the
channel for all sufficiently large fuel, and in every run no identity string passes the
`visitedDeps` guard in more than one iteration: the identity strings of the dependencies
that passed, which are the contents of `visitedDeps`, are pairwise distinct. -/
theorem cacheDeps_terminates_and_visits_once (env : Env) (cacheDir : String) (clean : Bool)
    (yml : PollapoYml) (root : PollapoRoot) (lockTable : PollapoRootLockTable)
    (queue S : List PollapoDep)
    (hR : yml.Root = some root) (hL : root.Lock = some lockTable)
    (hD : yml.deps = some queue) (hq : ∀ d ∈ queue, d ∈ S)
    (hC : ReachClosed env cacheDir (env.cache cacheDir clean) lockTable S) :
    (∃ fuel, ∀ fuel', fuel ≤ fuel' →
      (cacheDeps env cacheDir clean yml fuel').status = .closed) ∧
    ∀ fuel,
      ((cacheDeps env cacheDir clean yml fuel).state.passed.map PollapoDep.String).Nodup ∧
      (cacheDeps env cacheDir clean yml fuel).state.visitedDeps =
        (cacheDeps env cacheDir clean yml fuel).state.passed.map PollapoDep.String := by
  constructor
  · obtain ⟨fuel, hf⟩ := loop_terminates env cacheDir (env.cache cacheDir clean) lockTable hC
      _ queue { LoopState.init with queue := queue } rfl hq le_rfl
    refine ⟨fuel, fun fuel' hle => ?_⟩
    rw [cacheDeps_of_lock env cacheDir lockTable fuel' hR hL hD,
      cacheDepsLoop_closed_mono env cacheDir _ lockTable hle _ hf]
    exact hf
  · intro fuel
    have h := Inv_cacheDeps env cacheDir clean yml fuel
    exact ⟨h.nodup, h.visited⟩

/-- Claim C3 on a graph with a self-cycle (`o/a@v1` lists itself), a diamond (`o/a@v1` and
`o/b@v1` both list `o/c@main`) and a branch with its derived triple. -/
theorem cacheDeps_terminates_and_visits_once_witness :
    (∃ fuel, ∀ fuel', fuel ≤ fuel' →
      (cacheDeps diamondEnv "cache" false diamondYml fuel').status = .closed) ∧
    ∀ fuel,
      ((cacheDeps diamondEnv "cache" false diamondYml fuel).state.passed.map
        PollapoDep.String).Nodup ∧
      (cacheDeps diamondEnv "cache" false diamondYml fuel).state.visitedDeps =
        (cacheDeps diamondEnv "cache" false diamondYml fuel).state.passed.map
          PollapoDep.String :=
  cacheDeps_terminates_and_visits_once diamondEnv "cache" false diamondYml
    { Lock := some [("o/c@main", "abc123")] } [("o/c@main", "abc123")]
    [⟨"o", "a", "v1"⟩, ⟨"o", "b", "v1"⟩] diamondSet rfl rfl (by decide) (by decide)
    ⟨by
      intro d hd hb hc
      simp only [diamondSet, List.mem_cons, List.mem_singleton, List.not_mem_nil,
        or_false] at hd
      rcases hd with rfl | rfl | rfl | rfl
      · exact ⟨[⟨"o", "c", "main"⟩, ⟨"o", "a", "v1"⟩], by decide, by decide⟩
      · exact ⟨[⟨"o", "c", "main"⟩], by decide, by decide⟩
      · exact absurd (by decide) hb
      · exact absurd hc (by decide),
    by
      intro d hd hb
      simp only [diamondSet, List.mem_cons, List.mem_singleton, List.not_mem_nil,
        or_false] at hd
      rcases hd with rfl | rfl | rfl | rfl
      · exact absurd hb (by decide)
      · exact absurd hb (by decide)
      · decide
      · exact absurd hb (by decide)⟩

/-- Claim C5: at every point of every run of `cacheDeps`, and so once the channel is
closed and drained, a string is a key of the lock table `installCmd.RunE` builds from the
events if and only if it is the identity string of a dependency that passed the
`visitedDeps` guard and whose revision is classified as `"branch"`; and no dependency that
passed the guard with a revision not classified as `"branch"` has its identity string as
a key. -/
theorem lockTable_keys_are_visited_branches (env : Env) (cacheDir : String) (clean : Bool)
    (yml : PollapoYml) (fuel : Nat) :
    (∀ k, k ∈ (installLockTable (cacheDeps env cacheDir clean yml fuel).state.sent).keys ↔
      ∃ d ∈ (cacheDeps env cacheDir clean yml fuel).state.passed,
        env.getRevType d.rev = "branch" ∧ d.String = k) ∧
    (∀ d ∈ (cacheDeps env cacheDir clean yml fuel).state.passed,
      env.getRevType d.rev ≠ "branch" →
      d.String ∉ (installLockTable (cacheDeps env cacheDir clean yml fuel).state.sent).keys) :=
  ⟨fun k => Inv_keys (Inv_cacheDeps env cacheDir clean yml fuel) k,
    fun _ hd hb => Inv_not_key (Inv_cacheDeps env cacheDir clean yml fuel) hd hb⟩

/-- Claim C5 on a root manifest with `acme/widget@main` and `acme/widget@v1.0.0`: after the
channel is closed the branch is a key and the tag is not. -/
theorem lockTable_keys_are_visited_branches_witness :
    (cacheDeps acmeEnv "cache" false mixedYml 4).status = .closed ∧
    "acme/widget@main" ∈
      (installLockTable (cacheDeps acmeEnv "cache" false mixedYml 4).state.sent).keys ∧
    "acme/widget@v1.0.0" ∉
      (installLockTable (cacheDeps acmeEnv "cache" false mixedYml 4).state.sent).keys :=
  ⟨by decide,
    ((lockTable_keys_are_visited_branches acmeEnv "cache" false mixedYml 4).1 _).2
      ⟨⟨"acme", "widget", "main"⟩, by decide, by decide, by decide⟩,
    (lockTable_keys_are_visited_branches acmeEnv "cache" false mixedYml 4).2
      ⟨"acme", "widget", "v1.0.0"⟩ (by decide) (by decide)⟩

/-- Claim C7 as stated fails: the root manifest without dependencies has the lock entry
`acme/widget@main`, the traversal closes the channel, and the lock table `RunE` builds
from the events has no such key. -/
theorem lock_entries_not_carried_over :
    staleLockYml.Root = some { Lock := some [("acme/widget@main", "abc123")] } ∧
    "acme/widget@main" ∈ PollapoRootLockTable.keys [("acme/widget@main", "abc123")] ∧
    (cacheDeps acmeEnv "cache" false staleLockYml 1).status = .closed ∧
    "acme/widget@main" ∉
      (installLockTable (cacheDeps acmeEnv "cache" false staleLockYml 1).state.sent).keys := by
  decide

/-- Claim C7, amended: a key of the root manifest's lock table is a key of the lock table
`RunE` builds from the events exactly when it is the identity string of a dependency that
passed the `visitedDeps` guard in this run with a revision classified as `"branch"`. -/
theorem lock_entry_kept_iff_visited_branch (env : Env) (cacheDir : String) (clean : Bool)
    (yml : PollapoYml) (root : PollapoRoot) (lockTable : PollapoRootLockTable)
    (fuel : Nat) (k : String)
    (_hR : yml.Root = some root) (_hL : root.Lock = some lockTable)
    (_hk : k ∈ lockTable.keys) :
    k ∈ (installLockTable (cacheDeps env cacheDir clean yml fuel).state.sent).keys ↔
      ∃ d ∈ (cacheDeps env cacheDir clean yml fuel).state.passed,
        env.getRevType d.rev = "branch" ∧ d.String = k :=
  Inv_keys (Inv_cacheDeps env cacheDir clean yml fuel) k

/-- The amended claim C7 on a root manifest that locks and still lists
`acme/widget@main`: the key is kept. -/
theorem lock_entry_kept_iff_visited_branch_witness :
    (cacheDeps acmeEnv "cache" false mixedYml 4).status = .closed ∧
    "acme/widget@main" ∈
      (installLockTable (cacheDeps acmeEnv "cache" false mixedYml 4).state.sent).keys :=
  ⟨by decide,
    (lock_entry_kept_iff_visited_branch acmeEnv "cache" false mixedYml
      { Lock := some [("acme/widget@main", "abc123")] } [("acme/widget@main", "abc123")]
      4 "acme/widget@main" rfl rfl (by decide)).2
      ⟨⟨"acme", "widget", "main"⟩, by decide, by decide, by decide⟩⟩

/-- Claim C6: for every root manifest whose only dependency `a` is not a branch and is in
the cache, with a cached manifest that lists the dependencies `es`, pairwise distinct and
distinct from `a`, and with enough fuel for `a` and `es` (the manifest of each of `es`
that is cached and read being one `deps()` can read): the trace of events contains an
event for `a` and one for each of `es`, every event for `a` precedes every event for any
of `es`, and the first events of `es` appear in listed order. -/
theorem transitive_discovery_breadth_first (env : Env) (cacheDir : String) (clean : Bool)
    (yml : PollapoYml) (root : PollapoRoot) (lockTable : PollapoRootLockTable)
    (a : PollapoDep) (es : List PollapoDep) (fuel : Nat)
    (hR : yml.Root = some root) (hL : root.Lock = some lockTable)
    (hD : yml.deps = some [a])
    (hab : env.getRevType a.rev ≠ "branch")
    (hac : env.cache cacheDir clean (env.getYmlPath cacheDir a) = true)
    (had : (env.loadPollapoYml (env.getYmlPath cacheDir a)).deps = some es)
    (hn : es.Nodup) (hae : a ∉ es)
    (hok : ∀ e ∈ es, env.getRevType e.rev ≠ "branch" →
      env.cache cacheDir clean (env.getYmlPath cacheDir e) = true →
      (env.loadPollapoYml (env.getYmlPath cacheDir e)).deps ≠ none)
    (hfuel : es.length + 1 ≤ fuel) :
    a ∈ (cacheDeps env cacheDir clean yml fuel).state.sent.map (·.dep) ∧
    (∀ e ∈ es, e ∈ (cacheDeps env cacheDir clean yml fuel).state.sent.map (·.dep)) ∧
    (∀ i j : Nat, ∀ e ∈ es,
      ((cacheDeps env cacheDir clean yml fuel).state.sent.map (·.dep))[i]? = some a →
      ((cacheDeps env cacheDir clean yml fuel).state.sent.map (·.dep))[j]? = some e →
      i < j) ∧
    es.Pairwise (fun x y =>
      ((cacheDeps env cacheDir clean yml fuel).state.sent.map (·.dep)).indexOf x <
        ((cacheDeps env cacheDir clean yml fuel).state.sent.map (·.dep)).indexOf y) := by
  have hpa : Parsed a := deps_parsed hD a (List.mem_singleton.2 rfl)
  have hpe : ∀ e ∈ es, Parsed e := deps_parsed had
  obtain ⟨m, r, hg, har, hT⟩ := trace_shape env cacheDir (env.cache cacheDir clean) lockTable
    a es fuel hab hac had
    (hn.map_on fun x hx y hy h => String_inj_of_parsed (hpe x hx) (hpe y hy) h)
    (fun e he h => hae (String_inj_of_parsed (hpe e he) hpa h ▸ he))
    (fun e he => bodyOn_ne_none env cacheDir _ lockTable e (hok e he)) hfuel
  rw [cacheDeps_of_lock env cacheDir lockTable fuel hR hL hD, hT]
  have ham : a ∉ m := fun h => hae (hg.mem_of_mem_right a h)
  refine ⟨List.mem_cons_self _ _, ?_, ?_, ?_⟩
  · intro e he
    exact List.mem_cons_of_mem _ (List.mem_cons_of_mem _
      (List.mem_append_left _ (hg.mem_of_mem e he)))
  · intro i j e he hi hj
    have hea : e ≠ a := fun h => hae (h ▸ he)
    have hi2 : i < 2 := by
      by_contra hlt
      obtain ⟨i', rfl⟩ := Nat.exists_eq_add_of_le (Nat.le_of_not_lt hlt)
      rw [show 2 + i' = i' + 1 + 1 by omega] at hi
      simp only [List.getElem?_cons_succ] at hi
      rcases List.mem_append.1 (List.getElem?_mem hi) with h | h
      · exact ham h
      · exact har h
    have hj2 : 2 ≤ j := by
      by_contra hlt
      have : j = 0 ∨ j = 1 := by omega
      rcases this with rfl | rfl
      · simp at hj; exact hea hj.symm
      · simp at hj; exact hea hj.symm
    omega
  · refine (hg.pairwise_indexOf hn).imp_of_mem ?_
    intro x y hx hy hlt
    have hxa : a ≠ x := fun h => hae (h ▸ hx)
    have hya : a ≠ y := fun h => hae (h ▸ hy)
    rw [List.indexOf_cons_ne _ hxa, List.indexOf_cons_ne _ hxa,
      List.indexOf_cons_ne _ hya, List.indexOf_cons_ne _ hya,
      List.indexOf_append_of_mem (hg.mem_of_mem x hx),
      List.indexOf_append_of_mem (hg.mem_of_mem y hy)]
    omega

/-- Claim C6 on the root `["a/b@v1"]` whose cached manifest lists `["c/d@v2"]`: the trace
is `a/b@v1`, `a/b@v1`, `c/d@v2`. -/
theorem transitive_discovery_breadth_first_witness :
    (cacheDeps chainEnv "cache" false chainYml 2).state.sent.map (·.dep) =
      [⟨"a", "b", "v1"⟩, ⟨"a", "b", "v1"⟩, ⟨"c", "d", "v2"⟩] ∧
    (⟨"a", "b", "v1"⟩ ∈ (cacheDeps chainEnv "cache" false chainYml 2).state.sent.map (·.dep) ∧
    (∀ e ∈ [(⟨"c", "d", "v2"⟩ : PollapoDep)],
      e ∈ (cacheDeps chainEnv "cache" false chainYml 2).state.sent.map (·.dep)) ∧
    (∀ i j : Nat, ∀ e ∈ [(⟨"c", "d", "v2"⟩ : PollapoDep)],
      ((cacheDeps chainEnv "cache" false chainYml 2).state.sent.map (·.dep))[i]? =
        some ⟨"a", "b", "v1"⟩ →
      ((cacheDeps chainEnv "cache" false chainYml 2).state.sent.map (·.dep))[j]? = some e →
      i < j) ∧
    [(⟨"c", "d", "v2"⟩ : PollapoDep)].Pairwise (fun x y =>
      ((cacheDeps chainEnv "cache" false chainYml 2).state.sent.map (·.dep)).indexOf x <
        ((cacheDeps chainEnv "cache" false chainYml 2).state.sent.map (·.dep)).indexOf y)) :=
  ⟨by decide,
    transitive_discovery_breadth_first chainEnv "cache" false chainYml { Lock := some [] } []
      ⟨"a", "b", "v1"⟩ [⟨"c", "d", "v2"⟩] 2 rfl rfl (by decide) (by decide) (by decide)
      (by decide) (by decide) (by decide) (by decide) (by decide)⟩

end Pollapo
